import Mathlib

/-!
Shallow embedding of the managarr tree widget core
(src/src/tree_item.rs, src/src/flatten.rs and the viewport part of
Tree::render in src/src/lib.rs), together with theorems checking the
natural-language specification against it.

Modelling conventions:
  - Rust u64 identifiers are modelled as Nat; a path (Vec of identifiers
    from the root) is a List Nat.
  - The node content is opaque in the source and only queried through its
    rendered height, so it is modelled by that height (a Nat).
  - HashSet of paths is modelled as a List of paths with membership; only
    membership and cardinality of the set are used by the source.
  - usize arithmetic is modelled over Nat. Rust saturating_sub on usize is
    exactly Nat subtraction. The one place where the machine width can
    matter (the plain addition in the greedy loop) additionally gets a
    64-bit wrapping model, growLoopU64, for comparison.
  - Fallible steps (slice indexing, which panics when out of bounds in
    Rust) return Option; none models the panic.
-/

namespace ManagarrTree

/-- A tree node, from TreeItem in src/src/tree_item.rs: an identifier
(unique only among siblings), opaque content (modelled by its rendered
height, the only property the core ever queries), and ordered children. -/
inductive TreeItem : Type where
  | mk (identifier : Nat) (content : Nat) (children : List TreeItem) : TreeItem

/-- Identifier accessor of TreeItem. -/
def TreeItem.identifier : TreeItem → Nat
  | .mk i _ _ => i

/-- Content accessor of TreeItem (the content is modelled by its height). -/
def TreeItem.content : TreeItem → Nat
  | .mk _ c _ => c

/-- Children accessor of TreeItem. -/
def TreeItem.children : TreeItem → List TreeItem
  | .mk _ _ c => c

/-- Rendered height of a TreeItem: delegates to the content, which is
modelled by exactly this number (TreeItem::height in tree_item.rs). -/
def TreeItem.height (t : TreeItem) : Nat := t.content

/-- TreeItem::new from src/src/tree_item.rs: build a node with children;
returns an error (none) when the HashSet of the children identifiers has
fewer elements than the children list, i.e. when two children share an
identifier. The number of distinct identifiers is the length of dedup. -/
def TreeItem.new (identifier : Nat) (content : Nat) (children : List TreeItem) :
    Option TreeItem :=
  if ((children.map TreeItem.identifier).dedup).length ≠ children.length then
    none
  else
    some (TreeItem.mk identifier content children)

/-- TreeItem::add_child from src/src/tree_item.rs: returns an error (none)
when the identifier of the new child already occurs among the current
children, otherwise appends the child at the end. -/
def TreeItem.add_child (self child : TreeItem) : Option TreeItem :=
  if child.identifier ∈ self.children.map TreeItem.identifier then
    none
  else
    some (TreeItem.mk self.identifier self.content (self.children ++ [child]))

/-- A flattened row, from Flattened in src/src/flatten.rs: the full path
of the node and the node itself. -/
structure Flattened where
  identifier : List Nat
  item : TreeItem

/-- Zero based depth of a flattened row (Flattened::depth in
src/src/flatten.rs): length of the path minus one. -/
def Flattened.depth (f : Flattened) : Nat := f.identifier.length - 1

/-- The flatten function from src/src/flatten.rs: for each item in order,
push its path (parent path plus own identifier) and the item, and splice
in the recursively flattened children exactly when the path is a member of
the open set. -/
def flatten (openIdentifiers : List (List Nat)) :
    List TreeItem → List Nat → List Flattened
  | [], _current => []
  | TreeItem.mk ident cont children :: rest, current =>
    let childIdentifier := current ++ [ident]
    let childResult :=
      if childIdentifier ∈ openIdentifiers then
        flatten openIdentifiers children childIdentifier
      else []
    Flattened.mk childIdentifier (TreeItem.mk ident cont children) ::
      (childResult ++ flatten openIdentifiers rest current)

/-- The user interaction state, from TreeState (declared in lib.rs; the
fields are the ones the render code in src/src/lib.rs reads and writes):
scroll offset, selected path, set of opened paths, and the flag
ensure_selected_in_view_on_next_render. -/
structure TreeState where
  offset : Nat
  selected : List Nat
  opened : List (List Nat)
  ensure_selected_in_view_on_next_render : Bool

/-- Iterator position: index of the first element satisfying the
predicate, as used at src/src/lib.rs lines 198-201. -/
def position (p : Flattened → Bool) : List Flattened → Option Nat
  | [] => none
  | x :: xs => if p x then some 0 else (position p xs).map (· + 1)

/-- Lines 195-202 of src/src/lib.rs: the selected index is 0 when the
selection is empty, otherwise the position of the row whose path equals
the selection, defaulting to 0 when absent. -/
def selectedIndexOf (visible : List Flattened) (selected : List Nat) : Nat :=
  if selected.isEmpty then 0
  else (position (fun o => o.identifier == selected) visible).getD 0

/-- The per-row heights of the flattened sequence, as queried through
item.item.height() in src/src/lib.rs. -/
def heightsOf (visible : List Flattened) : List Nat :=
  visible.map fun f => f.item.height

/-- Lines 205-209 of src/src/lib.rs: clamp the stored offset to the last
valid row index, and when the reveal flag is set additionally clamp it to
the selected index. -/
def clampedStart (visible : List Flattened) (s : TreeState) : Nat :=
  let start := min s.offset (visible.length - 1)
  if s.ensure_selected_in_view_on_next_render then
    min start (selectedIndexOf visible s.selected)
  else start

/-- Lines 211-220 of src/src/lib.rs: greedily grow the end of the window,
accumulating row heights over the remaining rows (the sequence after
skip(start)), stopping before a row that would exceed the available
height. The addition here is the plain usize addition of the source,
modelled over Nat; see growLoopU64 for the 64-bit wrapping model. -/
def growLoop (availableHeight : Nat) : List Nat → Nat → Nat → Nat × Nat
  | [], endIdx, height => (endIdx, height)
  | h :: rest, endIdx, height =>
    if height + h > availableHeight then (endIdx, height)
    else growLoop availableHeight rest (endIdx + 1) (height + h)

/-- The same greedy loop with the accumulating addition performed at the
width of usize (64 bit, wrapping on overflow as released Rust does),
exactly as written at lines 213-220 of src/src/lib.rs. -/
def growLoopU64 (availableHeight : Nat) : List Nat → Nat → Nat → Nat × Nat
  | [], endIdx, height => (endIdx, height)
  | h :: rest, endIdx, height =>
    if (height + h) % 2 ^ 64 > availableHeight then (endIdx, height)
    else growLoopU64 availableHeight rest (endIdx + 1) ((height + h) % 2 ^ 64)

/-- Lines 225-228 of src/src/lib.rs: while the height exceeds the budget,
saturating-subtract the height of the row at start (the head of the not
yet dropped suffix of the heights) and advance start. Reading past the
end of the sequence is the panic of visible[start], modelled as none.
Nat subtraction is exactly usize saturating_sub. -/
def shrinkLoop (availableHeight : Nat) (rest : List Nat) (start height : Nat) :
    Option (Nat × Nat) :=
  if height > availableHeight then
    match rest with
    | [] => none
    | h :: rest => shrinkLoop availableHeight rest (start + 1) (height - h)
  else some (start, height)

/-- Lines 222-229 of src/src/lib.rs, with the number of remaining
iterations (selectedIndex + 1 - endIdx, which the loop decrements) made
an explicit fuel argument so the recursion is structural: while the
selected index is at or beyond the end, saturating-add the height of the
row at the end (none models the visible[end] panic when out of bounds),
advance the end, and shrink from the front until back within budget.
When the fuel is 0 the loop condition selectedIndex >= endIdx is false
(the wrapper revealLoop always supplies exact fuel), so returning the
state unchanged is exactly the loop exit. -/
def revealLoopF (availableHeight : Nat) (hs : List Nat) (selectedIndex : Nat) :
    Nat → Nat → Nat → Nat → Option (Nat × Nat × Nat)
  | 0, start, endIdx, height => some (start, endIdx, height)
  | fuel + 1, start, endIdx, height =>
    if selectedIndex ≥ endIdx then
      match hs[endIdx]? with
      | none => none
      | some h =>
        match shrinkLoop availableHeight (hs.drop start) start (height + h) with
        | none => none
        | some (start', height') =>
          revealLoopF availableHeight hs selectedIndex fuel start' (endIdx + 1) height'
    else some (start, endIdx, height)

/-- The expand-then-shrink loop of lines 222-229 of src/src/lib.rs, with
its exact iteration count as fuel. -/
def revealLoop (availableHeight : Nat) (hs : List Nat) (selectedIndex : Nat)
    (start endIdx height : Nat) : Option (Nat × Nat × Nat) :=
  revealLoopF availableHeight hs selectedIndex (selectedIndex + 1 - endIdx)
    start endIdx height

/-- The whole viewport computation of Tree::render (src/src/lib.rs lines
195-231) on a non-empty flattened sequence: locate the selected index,
clamp the start, greedily grow the window, and when the reveal flag is
set run the expand-then-shrink loop. Returns the committed (offset, end)
pair; none models an out-of-bounds panic (which never occurs, see the
theorems). The committed offset is the first component. -/
def computeViewport (availableHeight : Nat) (visible : List Flattened)
    (s : TreeState) : Option (Nat × Nat) :=
  let hs := heightsOf visible
  let selectedIndex := selectedIndexOf visible s.selected
  let start := clampedStart visible s
  let grown := growLoop availableHeight (hs.drop start) start 0
  if s.ensure_selected_in_view_on_next_render then
    match revealLoop availableHeight hs selectedIndex start grown.1 grown.2 with
    | none => none
    | some (start', endIdx', _) => some (start', endIdx')
  else some (start, grown.1)

/-- The effect of Tree::render (src/src/lib.rs lines 175-232) on the
state: with a zero-width or zero-height inner area, or an empty flattened
sequence, return without touching the state; otherwise commit the offset
and clear the reveal flag. The flattened sequence is
state.flatten(&self.items), which is the free flatten with the opened set
and the empty starting path. Painting (lines 234-304) only reads the
buffer and is outside the state model. -/
def renderState (width availableHeight : Nat) (items : List TreeItem)
    (s : TreeState) : Option TreeState :=
  if width < 1 ∨ availableHeight < 1 then some s
  else
    let visible := flatten s.opened items []
    if visible.isEmpty then some s
    else
      match computeViewport availableHeight visible s with
      | none => none
      | some (start, _endIdx) =>
        some { s with offset := start,
                      ensure_selected_in_view_on_next_render := false }

/-- Sum of the heights of the rows in the half-open index window from a
to b; the quantity the viewport loops track. -/
def windowSum (hs : List Nat) (a b : Nat) : Nat :=
  ((hs.drop a).take (b - a)).sum

/-- Specification-side visibility predicate, written from the spec text
of section 4.3: a row with path p holding node n is visible when n is one
of the items (its path being the current path extended by its own
identifier), or when it is visible inside the children of an item whose
path is a member of the expanded set. -/
inductive SpecVisible (openIdentifiers : List (List Nat)) :
    List TreeItem → List Nat → List Nat → TreeItem → Prop where
  | here {items : List TreeItem} {current : List Nat} {n : TreeItem} :
      n ∈ items →
      SpecVisible openIdentifiers items current (current ++ [n.identifier]) n
  | deeper {items : List TreeItem} {current p : List Nat} {n m : TreeItem} :
      n ∈ items →
      (current ++ [n.identifier]) ∈ openIdentifiers →
      SpecVisible openIdentifiers n.children (current ++ [n.identifier]) p m →
      SpecVisible openIdentifiers items current p m

/-! Arithmetic facts about windowSum, the quantity the viewport loops
track. -/

theorem windowSum_of_le (hs : List Nat) {a b : Nat} (h : b ≤ a) :
    windowSum hs a b = 0 := by
  simp [windowSum, Nat.sub_eq_zero_of_le h]

theorem windowSum_split (hs : List Nat) {a b c : Nat} (hab : a ≤ b) (hbc : b ≤ c) :
    windowSum hs a c = windowSum hs a b + windowSum hs b c := by
  have h1 : c - a = (b - a) + (c - b) := by omega
  have h2 : a + (b - a) = b := by omega
  rw [windowSum, h1, List.take_add, List.sum_append, List.drop_drop, h2]
  rfl

theorem windowSum_single (hs : List Nat) (a : Nat) :
    windowSum hs a (a + 1) = hs.getD a 0 := by
  have h1 : a + 1 - a = 1 := by omega
  by_cases h : a < hs.length
  · rw [windowSum, h1, List.drop_eq_getElem_cons h, List.getD_eq_getElem _ _ h,
      List.take_succ_cons, List.take_zero, List.sum_cons, List.sum_nil,
      Nat.add_zero]
  · rw [windowSum, h1, List.drop_eq_nil_of_le (by omega),
      List.getD_eq_default _ _ (by omega)]
    rfl

theorem windowSum_succ (hs : List Nat) {a b : Nat} (hab : a ≤ b) :
    windowSum hs a (b + 1) = windowSum hs a b + hs.getD b 0 := by
  rw [windowSum_split hs hab (Nat.le_succ b), windowSum_single]

theorem windowSum_cons (hs : List Nat) {a b : Nat} (hab : a < b) :
    windowSum hs a b = hs.getD a 0 + windowSum hs (a + 1) b := by
  rw [windowSum_split hs (Nat.le_succ a) hab, windowSum_single]

theorem windowSum_mono (hs : List Nat) {a b c : Nat} (hab : a ≤ b) (hbc : b ≤ c) :
    windowSum hs a b ≤ windowSum hs a c := by
  rw [windowSum_split hs hab hbc]
  omega

theorem windowSum_mono_left (hs : List Nat) {a b c : Nat} (hab : a ≤ b)
    (hbc : b ≤ c) : windowSum hs b c ≤ windowSum hs a c := by
  rw [windowSum_split hs hab hbc]
  omega

/-! Facts about position and selectedIndexOf. -/

theorem position_lt_length {p : Flattened → Bool} :
    ∀ {l : List Flattened} {i : Nat}, position p l = some i → i < l.length := by
  intro l
  induction l with
  | nil => intro i h; simp [position] at h
  | cons x xs ih =>
    intro i h
    rw [position] at h
    by_cases hx : p x
    · rw [if_pos hx] at h
      simp only [Option.some.injEq] at h
      simp [← h]
    · rw [if_neg hx] at h
      obtain ⟨j, hj, rfl⟩ := Option.map_eq_some'.mp h
      have := ih hj
      simp
      omega

theorem position_eq_none {p : Flattened → Bool} :
    ∀ {l : List Flattened}, (∀ x ∈ l, p x = false) → position p l = none := by
  intro l
  induction l with
  | nil => intro _; rfl
  | cons x xs ih =>
    intro h
    rw [position, if_neg (by simp [h x (by simp)]), ih (fun y hy => h y (by simp [hy]))]
    rfl

theorem selectedIndexOf_lt (visible : List Flattened) (selected : List Nat)
    (h : visible ≠ []) : selectedIndexOf visible selected < visible.length := by
  have hlen : 0 < visible.length := List.length_pos.mpr h
  unfold selectedIndexOf
  by_cases he : selected.isEmpty
  · rw [if_pos he]; exact hlen
  · rw [if_neg he]
    cases hp : position (fun o => o.identifier == selected) visible with
    | none => simpa using hlen
    | some i => simpa using position_lt_length hp

/-! Invariants of the three viewport loops. -/

theorem growLoop_spec (availableHeight : Nat) :
    ∀ (rest : List Nat) (endIdx height : Nat), height ≤ availableHeight →
      ∃ e ht, growLoop availableHeight rest endIdx height = (e, ht) ∧
        endIdx ≤ e ∧ e - endIdx ≤ rest.length ∧
        ht = height + (rest.take (e - endIdx)).sum ∧ ht ≤ availableHeight := by
  intro rest
  induction rest with
  | nil =>
    intro endIdx height hle
    exact ⟨endIdx, height, rfl, Nat.le_refl _, by simp, by simp, hle⟩
  | cons h t ih =>
    intro endIdx height hle
    rw [growLoop]
    by_cases hc : height + h > availableHeight
    · rw [if_pos hc]
      exact ⟨endIdx, height, rfl, Nat.le_refl _, by simp, by simp, hle⟩
    · rw [if_neg hc]
      obtain ⟨e, ht, heq, h1, h2, h3, h4⟩ := ih (endIdx + 1) (height + h) (by omega)
      refine ⟨e, ht, heq, by omega, by simp; omega, ?_, h4⟩
      have hek : e - endIdx = (e - (endIdx + 1)) + 1 := by omega
      rw [hek, List.take_succ_cons, List.sum_cons]
      omega

theorem greedy_spec (availableHeight : Nat) (hs : List Nat) (start : Nat)
    (hstart : start ≤ hs.length) :
    ∃ e ht, growLoop availableHeight (hs.drop start) start 0 = (e, ht) ∧
      start ≤ e ∧ e ≤ hs.length ∧ ht = windowSum hs start e ∧
      ht ≤ availableHeight := by
  obtain ⟨e, ht, heq, h1, h2, h3, h4⟩ :=
    growLoop_spec availableHeight (hs.drop start) start 0 (Nat.zero_le _)
  rw [List.length_drop] at h2
  refine ⟨e, ht, heq, h1, by omega, ?_, h4⟩
  rw [h3, windowSum]
  omega

theorem shrinkLoop_spec (availableHeight : Nat) (hs : List Nat) (endB : Nat)
    (hlen : endB ≤ hs.length) :
    ∀ (k start height : Nat), endB - start = k →
      height = windowSum hs start endB → start ≤ endB →
      ∃ S H, shrinkLoop availableHeight (hs.drop start) start height =
          some (S, H) ∧
        start ≤ S ∧ S ≤ endB ∧ H = windowSum hs S endB ∧ H ≤ availableHeight ∧
        ∀ t, start ≤ t → t < S → availableHeight < windowSum hs t endB := by
  intro k
  induction k with
  | zero =>
    intro start height hk hH hse
    have hbs : endB ≤ start := by omega
    have hz : height = 0 := by rw [hH, windowSum_of_le hs hbs]
    rw [shrinkLoop.eq_def, if_neg (by omega : ¬height > availableHeight)]
    exact ⟨start, height, rfl, Nat.le_refl _, by omega, hH, by omega,
      fun t ht1 ht2 => absurd (Nat.lt_of_le_of_lt ht1 ht2)
        (Nat.lt_irrefl start)⟩
  | succ k ih =>
    intro start height hk hH hse
    by_cases hc : height > availableHeight
    · have hsb : start < endB := by omega
      have hsl : start < hs.length := by omega
      have hstep : shrinkLoop availableHeight (hs.drop start) start height =
          shrinkLoop availableHeight (hs.drop (start + 1)) (start + 1)
            (height - hs[start]) := by
        rw [shrinkLoop.eq_def, if_pos hc, List.drop_eq_getElem_cons hsl]
      have hrec : height - hs[start] = windowSum hs (start + 1) endB := by
        rw [hH, windowSum_cons hs hsb, List.getD_eq_getElem _ _ hsl]
        omega
      obtain ⟨S, H, heq, h1, h2, h3, h4, hmin⟩ :=
        ih (start + 1) (height - hs[start]) (by omega) hrec (by omega)
      rw [hstep]
      refine ⟨S, H, heq, by omega, h2, h3, h4, ?_⟩
      intro t ht1 ht2
      rcases Nat.eq_or_lt_of_le ht1 with rfl | ht1
      · rw [← hH]; exact hc
      · exact hmin t (by omega) ht2
    · rw [shrinkLoop.eq_def, if_neg hc]
      exact ⟨start, height, rfl, Nat.le_refl _, hse, hH, by omega,
        fun t ht1 ht2 => absurd (Nat.lt_of_le_of_lt ht1 ht2)
          (Nat.lt_irrefl start)⟩

theorem revealLoopF_spec (availableHeight : Nat) (hs : List Nat)
    (selectedIndex : Nat) (hsel : selectedIndex < hs.length) :
    ∀ (fuel start endIdx height : Nat),
      height = windowSum hs start endIdx → start ≤ endIdx →
      height ≤ availableHeight → selectedIndex + 1 - endIdx ≤ fuel →
      ∃ S E H, revealLoopF availableHeight hs selectedIndex fuel start endIdx
          height = some (S, E, H) ∧
        E = max endIdx (selectedIndex + 1) ∧ start ≤ S ∧ S ≤ E ∧
        H = windowSum hs S E ∧ H ≤ availableHeight ∧
        ∀ t, start ≤ t → t < S → availableHeight < windowSum hs t E := by
  intro fuel
  induction fuel with
  | zero =>
    intro start endIdx height hH hse hha hfuel
    refine ⟨start, endIdx, height, rfl, by omega, Nat.le_refl _, hse, hH, hha,
      fun t ht1 ht2 => absurd (Nat.lt_of_le_of_lt ht1 ht2)
        (Nat.lt_irrefl start)⟩
  | succ fuel ih =>
    intro start endIdx height hH hse hha hfuel
    by_cases hc : selectedIndex ≥ endIdx
    · have hel : endIdx < hs.length := by omega
      have hget : hs[endIdx]? = some hs[endIdx] := List.getElem?_eq_getElem hel
      have hsum : height + hs[endIdx] = windowSum hs start (endIdx + 1) := by
        rw [windowSum_succ hs hse, List.getD_eq_getElem _ _ hel, hH]
      obtain ⟨S1, H1, hshr, hs1, hs2, hs3, hs4, hmin1⟩ :=
        shrinkLoop_spec availableHeight hs (endIdx + 1) (by omega)
          (endIdx + 1 - start) start (height + hs[endIdx]) rfl hsum (by omega)
      obtain ⟨S, E, H, hrec, hE, hS, hSE, hHw, hHa, hmin⟩ :=
        ih S1 (endIdx + 1) H1 hs3 hs2 hs4 (by omega)
      refine ⟨S, E, H, ?_, ?_, by omega, hSE, hHw, hHa, ?_⟩
      · rw [revealLoopF, if_pos hc]
        simp only [hget, hshr, hrec]
      · rw [hE]; omega
      · intro t ht1 ht2
        by_cases htS1 : t < S1
        · have h1 := hmin1 t ht1 htS1
          have h2 : windowSum hs t (endIdx + 1) ≤ windowSum hs t E :=
            windowSum_mono hs (by omega) (by rw [hE]; omega)
          omega
        · exact hmin t (by omega) ht2
    · refine ⟨start, endIdx, height, ?_, by omega, Nat.le_refl _, hse, hH, hha,
        fun t ht1 ht2 => absurd (Nat.lt_of_le_of_lt ht1 ht2)
          (Nat.lt_irrefl start)⟩
      rw [revealLoopF, if_neg hc]

theorem clampedStart_le (visible : List Flattened) (s : TreeState) :
    clampedStart visible s ≤ visible.length - 1 := by
  simp only [clampedStart]
  split <;> omega

theorem clampedStart_le_sel (visible : List Flattened) (s : TreeState)
    (hrev : s.ensure_selected_in_view_on_next_render = true) :
    clampedStart visible s ≤ selectedIndexOf visible s.selected := by
  simp only [clampedStart, hrev, if_true]
  omega

theorem computeViewport_noreveal (availableHeight : Nat)
    (visible : List Flattened) (s : TreeState)
    (hrev : s.ensure_selected_in_view_on_next_render = false) :
    computeViewport availableHeight visible s =
      some (clampedStart visible s,
        (growLoop availableHeight
          ((heightsOf visible).drop (clampedStart visible s))
          (clampedStart visible s) 0).1) := by
  simp [computeViewport, hrev]

theorem computeViewport_reveal (availableHeight : Nat)
    (visible : List Flattened) (s : TreeState) (hne : visible ≠ [])
    (hrev : s.ensure_selected_in_view_on_next_render = true) :
    ∃ S E, computeViewport availableHeight visible s = some (S, E) ∧
      clampedStart visible s ≤ S ∧ S ≤ E ∧
      E = max (growLoop availableHeight
          ((heightsOf visible).drop (clampedStart visible s))
          (clampedStart visible s) 0).1
        (selectedIndexOf visible s.selected + 1) ∧
      windowSum (heightsOf visible) S E ≤ availableHeight ∧
      ∀ t, clampedStart visible s ≤ t → t < S →
        availableHeight < windowSum (heightsOf visible) t E := by
  have hlen : (heightsOf visible).length = visible.length := by
    simp [heightsOf]
  have hsel : selectedIndexOf visible s.selected < (heightsOf visible).length := by
    rw [hlen]
    exact selectedIndexOf_lt visible s.selected hne
  have hpos : 0 < visible.length := List.length_pos.mpr hne
  have hst : clampedStart visible s ≤ (heightsOf visible).length := by
    have := clampedStart_le visible s
    omega
  obtain ⟨e0, h0, hgrow, hg1, hg2, hg3, hg4⟩ :=
    greedy_spec availableHeight (heightsOf visible) (clampedStart visible s) hst
  obtain ⟨S, E, H, hrl, hE, hS1, hS2, hHw, hHa, hmin⟩ :=
    revealLoopF_spec availableHeight (heightsOf visible)
      (selectedIndexOf visible s.selected) hsel
      (selectedIndexOf visible s.selected + 1 - e0)
      (clampedStart visible s) e0 h0 hg3 hg1 hg4 (Nat.le_refl _)
  refine ⟨S, E, ?_, hS1, hS2, ?_, by rw [← hHw]; exact hHa, hmin⟩
  · simp only [computeViewport, hrev, if_true, hgrow]
    rw [revealLoop]
    simp only [hrl]
  · rw [hE, hgrow]

theorem computeViewport_start_le_sel (availableHeight : Nat)
    (visible : List Flattened) (s : TreeState) (hne : visible ≠ [])
    (hrev : s.ensure_selected_in_view_on_next_render = true)
    (hfit : (heightsOf visible).getD (selectedIndexOf visible s.selected) 0 ≤
      availableHeight) :
    ∃ S E, computeViewport availableHeight visible s = some (S, E) ∧
      S ≤ selectedIndexOf visible s.selected ∧
      selectedIndexOf visible s.selected < E ∧
      clampedStart visible s ≤ S ∧
      windowSum (heightsOf visible) S E ≤ availableHeight ∧
      E = max (growLoop availableHeight
          ((heightsOf visible).drop (clampedStart visible s))
          (clampedStart visible s) 0).1
        (selectedIndexOf visible s.selected + 1) ∧
      ∀ t, clampedStart visible s ≤ t → t < S →
        availableHeight < windowSum (heightsOf visible) t E := by
  obtain ⟨S, E, hcv, hS1, hS2, hE, hW, hmin⟩ :=
    computeViewport_reveal availableHeight visible s hne hrev
  have hpos : 0 < visible.length := List.length_pos.mpr hne
  have hst : clampedStart visible s ≤ (heightsOf visible).length := by
    have h1 := clampedStart_le visible s
    have h2 : (heightsOf visible).length = visible.length := by simp [heightsOf]
    omega
  obtain ⟨e0, h0, hgrow, hg1, hg2, hg3, hg4⟩ :=
    greedy_spec availableHeight (heightsOf visible) (clampedStart visible s) hst
  have hE1 : E = max e0 (selectedIndexOf visible s.selected + 1) := by
    rw [hE, hgrow]
  have hselE : selectedIndexOf visible s.selected < E := by
    omega
  have hSle : S ≤ selectedIndexOf visible s.selected := by
    by_contra hgt
    push_neg at hgt
    have hm := hmin (selectedIndexOf visible s.selected)
      (clampedStart_le_sel visible s hrev) hgt
    by_cases hcase : e0 ≤ selectedIndexOf visible s.selected
    · have hEeq : E = selectedIndexOf visible s.selected + 1 := by
        omega
      rw [hEeq, windowSum_single] at hm
      omega
    · have hEeq : E = e0 := by
        omega
      have hmono : windowSum (heightsOf visible)
          (selectedIndexOf visible s.selected) E ≤
          windowSum (heightsOf visible) (clampedStart visible s) E := by
        rw [hEeq]
        exact windowSum_mono_left (heightsOf visible)
          (clampedStart_le_sel visible s hrev) (by omega)
      rw [hEeq] at hmono hm
      rw [← hg3] at hmono
      omega
  exact ⟨S, E, hcv, hSle, hselE, hS1, hW, hE, hmin⟩

theorem selected_height_le (availableHeight : Nat) (visible : List Flattened)
    (s : TreeState) (hne : visible ≠ [])
    (htall : ∀ f ∈ visible, f.item.height ≤ availableHeight) :
    (heightsOf visible).getD (selectedIndexOf visible s.selected) 0 ≤
      availableHeight := by
  have hsel : selectedIndexOf visible s.selected < visible.length :=
    selectedIndexOf_lt visible s.selected hne
  have hlen : (heightsOf visible).length = visible.length := by simp [heightsOf]
  rw [List.getD_eq_getElem _ _ (by omega)]
  simp only [heightsOf, List.getElem_map]
  exact htall _ (List.getElem_mem _)

/-- C1: for every non-empty flattened sequence, if the reveal flag was set
before the viewport computation and the available height is at least the
height of the tallest single row, then the computation succeeds and the
selected index (the index of the row whose path equals the selection, or 0
when the selection is empty or absent, which is selectedIndexOf) lies in
the committed window: offset ≤ selectedIndex < endIdx, where offset is the
committed first component and endIdx = offset + number of rows that fit. -/
theorem c1_viewport_reveals_selection (availableHeight : Nat)
    (visible : List Flattened) (s : TreeState) (hne : visible ≠ [])
    (hrev : s.ensure_selected_in_view_on_next_render = true)
    (htall : ∀ f ∈ visible, f.item.height ≤ availableHeight) :
    ∃ S E, computeViewport availableHeight visible s = some (S, E) ∧
      S ≤ selectedIndexOf visible s.selected ∧
      selectedIndexOf visible s.selected < E := by
  obtain ⟨S, E, hcv, h1, h2, _, _, _, _⟩ :=
    computeViewport_start_le_sel availableHeight visible s hne hrev
      (selected_height_le availableHeight visible s hne htall)
  exact ⟨S, E, hcv, h1, h2⟩

/-- C1 witness: three rows of height 1, available height 2, third row
selected with the reveal flag set; the window becomes rows 1 and 2 and
contains the selected index 2. -/
theorem c1_viewport_reveals_selection_witness :
    ∃ S E, computeViewport 2
        [Flattened.mk [1] (TreeItem.mk 1 1 []),
         Flattened.mk [2] (TreeItem.mk 2 1 []),
         Flattened.mk [3] (TreeItem.mk 3 1 [])]
        ⟨0, [3], [], true⟩ = some (S, E) ∧
      S ≤ selectedIndexOf
          [Flattened.mk [1] (TreeItem.mk 1 1 []),
           Flattened.mk [2] (TreeItem.mk 2 1 []),
           Flattened.mk [3] (TreeItem.mk 3 1 [])] [3] ∧
      selectedIndexOf
          [Flattened.mk [1] (TreeItem.mk 1 1 []),
           Flattened.mk [2] (TreeItem.mk 2 1 []),
           Flattened.mk [3] (TreeItem.mk 3 1 [])] [3] < E :=
  c1_viewport_reveals_selection 2
    [Flattened.mk [1] (TreeItem.mk 1 1 []),
     Flattened.mk [2] (TreeItem.mk 2 1 []),
     Flattened.mk [3] (TreeItem.mk 3 1 [])]
    ⟨0, [3], [], true⟩ (by simp) rfl (by decide)

/-- C10: for every non-empty flattened sequence and any state, the
selected index stays strictly below the sequence length and the whole
viewport computation completes without any out-of-bounds access (the
Option-modelled indexing never returns none). -/
theorem c10_viewport_indexing_in_bounds (availableHeight : Nat)
    (visible : List Flattened) (s : TreeState) (hne : visible ≠ []) :
    selectedIndexOf visible s.selected < visible.length ∧
    ∃ r, computeViewport availableHeight visible s = some r := by
  refine ⟨selectedIndexOf_lt visible s.selected hne, ?_⟩
  cases hrev : s.ensure_selected_in_view_on_next_render with
  | false => exact ⟨_, computeViewport_noreveal availableHeight visible s hrev⟩
  | true =>
    obtain ⟨S, E, hcv, _⟩ :=
      computeViewport_reveal availableHeight visible s hne hrev
    exact ⟨(S, E), hcv⟩

/-- C10 witness: even with a stale offset, a stale selection and rows far
taller than the viewport, the computation completes. -/
theorem c10_viewport_indexing_in_bounds_witness :
    selectedIndexOf [Flattened.mk [4] (TreeItem.mk 4 9 [])] [8] < 1 ∧
    ∃ r, computeViewport 1 [Flattened.mk [4] (TreeItem.mk 4 9 [])]
      ⟨100, [8], [], true⟩ = some r :=
  c10_viewport_indexing_in_bounds 1 [Flattened.mk [4] (TreeItem.mk 4 9 [])]
    ⟨100, [8], [], true⟩ (by simp)

/-- C6: a non-empty selection path matching no row defaults to index 0, an
empty selection is likewise index 0, and the computation completes without
error in every case. -/
theorem c6_stale_selection_defaults_to_zero (availableHeight : Nat)
    (visible : List Flattened) (s : TreeState) (hne : visible ≠ []) :
    ((∀ f ∈ visible, f.identifier ≠ s.selected) →
      selectedIndexOf visible s.selected = 0) ∧
    (s.selected = [] → selectedIndexOf visible s.selected = 0) ∧
    ∃ r, computeViewport availableHeight visible s = some r := by
  refine ⟨?_, ?_, ?_⟩
  · intro hno
    unfold selectedIndexOf
    by_cases he : s.selected.isEmpty
    · rw [if_pos he]
    · rw [if_neg he,
        position_eq_none (fun x hx => beq_eq_false_iff_ne.mpr (hno x hx))]
      rfl
  · intro hsel
    unfold selectedIndexOf
    rw [if_pos (by simp [hsel])]
  · cases hrev : s.ensure_selected_in_view_on_next_render with
    | false => exact ⟨_, computeViewport_noreveal availableHeight visible s hrev⟩
    | true =>
      obtain ⟨S, E, hcv, _⟩ :=
        computeViewport_reveal availableHeight visible s hne hrev
      exact ⟨(S, E), hcv⟩

/-- C6 witness: the stored selection [9] matches no row of the two-row
sequence; the selected index defaults to 0 and the computation completes. -/
theorem c6_stale_selection_defaults_to_zero_witness :
    selectedIndexOf
      [Flattened.mk [1] (TreeItem.mk 1 1 []), Flattened.mk [2] (TreeItem.mk 2 1 [])]
      [9] = 0 ∧
    ∃ r, computeViewport 4
      [Flattened.mk [1] (TreeItem.mk 1 1 []), Flattened.mk [2] (TreeItem.mk 2 1 [])]
      ⟨0, [9], [], true⟩ = some r := by
  have h := c6_stale_selection_defaults_to_zero 4
    [Flattened.mk [1] (TreeItem.mk 1 1 []), Flattened.mk [2] (TreeItem.mk 2 1 [])]
    ⟨0, [9], [], true⟩ (by simp)
  exact ⟨h.1 (by decide), h.2.2⟩

/-- C3 counterexample: rows of heights [1, 5], available height 3, second
row selected (index 1), reveal flag set, offset 0. The greedy window is
[0, 1), the selected lies beyond it, and the expand-then-shrink step
commits the window [2, 2): the shrink phase moved the window start past
the position holding the selection (2 > 1), the selected row is not in the
window, contradicting the claim as stated unconditionally over all row
heights. -/
theorem c3_expand_shrink_counterexample :
    computeViewport 3
      [Flattened.mk [1] (TreeItem.mk 1 1 []), Flattened.mk [2] (TreeItem.mk 2 5 [])]
      ⟨0, [2], [], true⟩ = some (2, 2) ∧
    selectedIndexOf
      [Flattened.mk [1] (TreeItem.mk 1 1 []), Flattened.mk [2] (TreeItem.mk 2 5 [])]
      [2] = 1 ∧
    (growLoop 3 ((heightsOf
      [Flattened.mk [1] (TreeItem.mk 1 1 []), Flattened.mk [2] (TreeItem.mk 2 5 [])]).drop 0)
      0 0).1 = 1 ∧
    ¬ (2 ≤ 1 ∧ (1 : Nat) < 2) := by
  refine ⟨rfl, rfl, rfl, by omega⟩

/-- C3 amended: under the additional hypothesis that the selected row
fits on its own in the available height (which the counterexample shows
to be necessary), when the reveal flag is set and the selected index is at
or beyond the end of the greedy window, the expand-then-shrink step
commits a window ending exactly one past the selected index (the selected
row is its last row), within the height budget, whose start never moved
past the selection and dropped only as many leading rows as necessary. -/
theorem c3_expand_shrink_reveals (availableHeight : Nat)
    (visible : List Flattened) (s : TreeState) (hne : visible ≠ [])
    (hrev : s.ensure_selected_in_view_on_next_render = true)
    (hfit : (heightsOf visible).getD (selectedIndexOf visible s.selected) 0 ≤
      availableHeight)
    (hbeyond : (growLoop availableHeight
        ((heightsOf visible).drop (clampedStart visible s))
        (clampedStart visible s) 0).1 ≤ selectedIndexOf visible s.selected) :
    ∃ S, computeViewport availableHeight visible s =
        some (S, selectedIndexOf visible s.selected + 1) ∧
      S ≤ selectedIndexOf visible s.selected ∧
      windowSum (heightsOf visible) S
        (selectedIndexOf visible s.selected + 1) ≤ availableHeight ∧
      ∀ t, clampedStart visible s ≤ t → t < S →
        availableHeight < windowSum (heightsOf visible) t
          (selectedIndexOf visible s.selected + 1) := by
  obtain ⟨S, E, hcv, hS, hselE, hst, hW, hE, hmin⟩ :=
    computeViewport_start_le_sel availableHeight visible s hne hrev hfit
  have hEeq : E = selectedIndexOf visible s.selected + 1 := by
    omega
  rw [hEeq] at hcv hW hmin
  exact ⟨S, hcv, hS, hW, hmin⟩

/-- C3 witness: rows of heights [2, 2, 2], available height 4, third row
selected, reveal flag set, offset 0; after the greedy window [0, 2) the
loop commits window [1, 3): the selected row 2 is the last row, the sum 4
fits, and dropping fewer than one leading row would overflow the budget. -/
theorem c3_expand_shrink_reveals_witness :
    ∃ S, computeViewport 4
        [Flattened.mk [1] (TreeItem.mk 1 2 []),
         Flattened.mk [2] (TreeItem.mk 2 2 []),
         Flattened.mk [3] (TreeItem.mk 3 2 [])]
        ⟨0, [3], [], true⟩ =
        some (S, selectedIndexOf
          [Flattened.mk [1] (TreeItem.mk 1 2 []),
           Flattened.mk [2] (TreeItem.mk 2 2 []),
           Flattened.mk [3] (TreeItem.mk 3 2 [])] [3] + 1) ∧
      S ≤ selectedIndexOf
          [Flattened.mk [1] (TreeItem.mk 1 2 []),
           Flattened.mk [2] (TreeItem.mk 2 2 []),
           Flattened.mk [3] (TreeItem.mk 3 2 [])] [3] ∧
      windowSum (heightsOf
          [Flattened.mk [1] (TreeItem.mk 1 2 []),
           Flattened.mk [2] (TreeItem.mk 2 2 []),
           Flattened.mk [3] (TreeItem.mk 3 2 [])]) S
        (selectedIndexOf
          [Flattened.mk [1] (TreeItem.mk 1 2 []),
           Flattened.mk [2] (TreeItem.mk 2 2 []),
           Flattened.mk [3] (TreeItem.mk 3 2 [])] [3] + 1) ≤ 4 ∧
      ∀ t, clampedStart
          [Flattened.mk [1] (TreeItem.mk 1 2 []),
           Flattened.mk [2] (TreeItem.mk 2 2 []),
           Flattened.mk [3] (TreeItem.mk 3 2 [])] ⟨0, [3], [], true⟩ ≤ t →
        t < S →
        4 < windowSum (heightsOf
          [Flattened.mk [1] (TreeItem.mk 1 2 []),
           Flattened.mk [2] (TreeItem.mk 2 2 []),
           Flattened.mk [3] (TreeItem.mk 3 2 [])]) t
          (selectedIndexOf
            [Flattened.mk [1] (TreeItem.mk 1 2 []),
             Flattened.mk [2] (TreeItem.mk 2 2 []),
             Flattened.mk [3] (TreeItem.mk 3 2 [])] [3] + 1) :=
  c3_expand_shrink_reveals 4
    [Flattened.mk [1] (TreeItem.mk 1 2 []),
     Flattened.mk [2] (TreeItem.mk 2 2 []),
     Flattened.mk [3] (TreeItem.mk 3 2 [])]
    ⟨0, [3], [], true⟩ (by simp) rfl (by decide) (by decide)

/-- C5 counterexample: rows of heights [1, 5] (the second selected and
taller than the available height 3), reveal flag set, prior offset 0: the
committed offset is 2, outside [0, len - 1] = [0, 1] for the length-2
sequence, refuting the claim as stated for every non-empty sequence. -/
theorem c5_offset_clamped_counterexample :
    computeViewport 3
      [Flattened.mk [1] (TreeItem.mk 1 1 []), Flattened.mk [2] (TreeItem.mk 2 5 [])]
      ⟨0, [2], [], true⟩ = some (2, 2) ∧
    ¬ (2 ≤ ([Flattened.mk [1] (TreeItem.mk 1 1 []),
        Flattened.mk [2] (TreeItem.mk 2 5 [])] : List Flattened).length - 1) := by
  refine ⟨rfl, by decide⟩

/-- C5 amended: the committed offset lies in [0, len - 1] for every
non-empty flattened sequence and any prior offset, provided that when the
reveal flag is set the selected row fits on its own in the available
height (the counterexample shows the claim fails without this proviso). -/
theorem c5_offset_clamped (availableHeight : Nat) (visible : List Flattened)
    (s : TreeState) (hne : visible ≠ [])
    (hfit : s.ensure_selected_in_view_on_next_render = true →
      (heightsOf visible).getD (selectedIndexOf visible s.selected) 0 ≤
        availableHeight) :
    ∃ S E, computeViewport availableHeight visible s = some (S, E) ∧
      S ≤ visible.length - 1 := by
  cases hrev : s.ensure_selected_in_view_on_next_render with
  | false =>
    exact ⟨_, _, computeViewport_noreveal availableHeight visible s hrev,
      clampedStart_le visible s⟩
  | true =>
    obtain ⟨S, E, hcv, hS, _⟩ :=
      computeViewport_start_le_sel availableHeight visible s hne hrev (hfit hrev)
    have hsel := selectedIndexOf_lt visible s.selected hne
    exact ⟨S, E, hcv, by omega⟩

/-- C5 witness: a huge stale offset 50 over a two-row sequence is brought
back into [0, 1]. -/
theorem c5_offset_clamped_witness :
    ∃ S E, computeViewport 3
        [Flattened.mk [1] (TreeItem.mk 1 1 []),
         Flattened.mk [2] (TreeItem.mk 2 1 [])]
        ⟨50, [2], [], true⟩ = some (S, E) ∧
      S ≤ ([Flattened.mk [1] (TreeItem.mk 1 1 []),
        Flattened.mk [2] (TreeItem.mk 2 1 [])] : List Flattened).length - 1 :=
  c5_offset_clamped 3
    [Flattened.mk [1] (TreeItem.mk 1 1 []), Flattened.mk [2] (TreeItem.mk 2 1 [])]
    ⟨50, [2], [], true⟩ (by simp) (fun _ => by decide)

/-- C7 counterexample: the greedy accumulation at lines 213-220 uses plain
addition, not saturating arithmetic. At usize width (growLoopU64) with
available height 2 and row heights [1, 2^64 - 1], the addition overflows
(wraps to 0), so the greedy window takes both rows, whose true combined
height 2^64 exceeds the budget; the exact computation (growLoop) stops
after the first row. Hence the accumulation is not saturating and an
overflow can change the result, refuting the claim as stated for all row
heights. -/
theorem c7_saturating_arithmetic_counterexample :
    growLoopU64 2 [1, 2 ^ 64 - 1] 0 0 = (2, 0) ∧
    growLoop 2 [1, 2 ^ 64 - 1] 0 0 = (1, 1) ∧
    2 < windowSum [1, 2 ^ 64 - 1] 0 2 := by
  refine ⟨by decide, by decide, by decide⟩

/-- C7 amended: heights and positions are non-negative row counts (Nat in
the model); the expand and shrink accumulations use saturating add and
sub, and Nat subtraction is exactly usize saturating_sub, so they never
underflow or overflow; the greedy accumulation however uses plain
addition, which cannot overflow only under a bound on the row heights:
whenever every row height is below 2^63 (any in-memory text satisfies
this) and the accumulated height entering the loop is within an available
height below 2^63, the 64-bit computation agrees with the exact one. -/
theorem c7_no_overflow_for_bounded_heights (availableHeight : Nat)
    (hav : availableHeight < 2 ^ 63) :
    ∀ (rest : List Nat) (endIdx height : Nat),
      (∀ x ∈ rest, x < 2 ^ 63) → height ≤ availableHeight →
      growLoopU64 availableHeight rest endIdx height =
        growLoop availableHeight rest endIdx height := by
  intro rest
  induction rest with
  | nil => intro endIdx height _ _; rfl
  | cons h t ih =>
    intro endIdx height hb hle
    have hh : h < 2 ^ 63 := hb h (by simp)
    have hmod : (height + h) % 2 ^ 64 = height + h :=
      Nat.mod_eq_of_lt (by omega)
    rw [growLoopU64, growLoop, hmod]
    by_cases hc : height + h > availableHeight
    · rw [if_pos hc, if_pos hc]
    · rw [if_neg hc, if_neg hc]
      exact ih (endIdx + 1) (height + h) (fun x hx => hb x (by simp [hx]))
        (by omega)

/-- C7 witness: with small heights the 64-bit greedy loop and the exact
one coincide. -/
theorem c7_no_overflow_for_bounded_heights_witness :
    growLoopU64 3 [1, 2, 4] 0 0 = growLoop 3 [1, 2, 4] 0 0 :=
  c7_no_overflow_for_bounded_heights 3 (by decide) [1, 2, 4] 0 0 (by decide)
    (by decide)

/-- C8: when the inner area has zero width or zero height, or the
flattened sequence is empty, render returns without touching the state:
the offset keeps its prior value and the reveal flag is not cleared (the
returned state is the input state). -/
theorem c8_degenerate_render_leaves_state_untouched (s : TreeState) :
    (∀ availableHeight items, renderState 0 availableHeight items s = some s) ∧
    (∀ width items, renderState width 0 items s = some s) ∧
    (∀ width availableHeight items, flatten s.opened items [] = [] →
      renderState width availableHeight items s = some s) := by
  refine ⟨?_, ?_, ?_⟩
  · intro availableHeight items
    rw [renderState, if_pos (Or.inl (by omega))]
  · intro width items
    rw [renderState, if_pos (Or.inr (by omega))]
  · intro width availableHeight items hflat
    by_cases hz : width < 1 ∨ availableHeight < 1
    · rw [renderState, if_pos hz]
    · rw [renderState, if_neg hz]
      simp [hflat]

/-- C8 witness: a render over an empty tree leaves a state with a stale
offset and an armed reveal flag exactly as it was. -/
theorem c8_degenerate_render_witness :
    renderState 5 5 [] ⟨2, [3], [[7]], true⟩ = some ⟨2, [3], [[7]], true⟩ :=
  (c8_degenerate_render_leaves_state_untouched ⟨2, [3], [[7]], true⟩).2.2 5 5 []
    (by simp [flatten])

theorem dedup_length_eq_iff_nodup {l : List Nat} :
    l.dedup.length = l.length ↔ l.Nodup := by
  constructor
  · intro h
    have heq := List.Sublist.eq_of_length (List.dedup_sublist l) h
    rw [← heq]
    exact List.nodup_dedup l
  · intro h
    rw [List.dedup_eq_self.mpr h]

/-- C4: DuplicateIdentifier is the only error. TreeItem::new errors
exactly when two of the given children share an identifier and creates no
node then, otherwise it builds exactly the requested node;
TreeItem::add_child errors exactly when the identifier of the child
already occurs among the current children (the pure model keeps the
receiver unchanged on error by construction), and on success appends the
child at the end, preserving identifier, content and the order of the
existing children. -/
theorem c4_duplicate_identifier_is_only_error :
    (∀ i c children, TreeItem.new i c children = none ↔
      ¬ (children.map TreeItem.identifier).Nodup) ∧
    (∀ i c children t, TreeItem.new i c children = some t →
      t = TreeItem.mk i c children) ∧
    (∀ self child, TreeItem.add_child self child = none ↔
      child.identifier ∈ self.children.map TreeItem.identifier) ∧
    (∀ self child t, TreeItem.add_child self child = some t →
      t.identifier = self.identifier ∧ t.content = self.content ∧
      t.children = self.children ++ [child]) := by
  refine ⟨?_, ?_, ?_, ?_⟩
  · intro i c children
    have hlm : (children.map TreeItem.identifier).length = children.length :=
      List.length_map _ _
    rw [TreeItem.new]
    by_cases hd :
        ((children.map TreeItem.identifier).dedup).length = children.length
    · rw [if_neg (fun hne => hne hd)]
      constructor
      · intro h
        exact absurd h (by simp)
      · intro hnd
        exact absurd (dedup_length_eq_iff_nodup.mp (by omega)) hnd
    · rw [if_pos hd]
      constructor
      · intro _ hnd
        exact hd (by rw [dedup_length_eq_iff_nodup.mpr hnd]; omega)
      · intro _
        rfl
  · intro i c children t h
    rw [TreeItem.new] at h
    split at h
    · cases h
    · injection h with h2
      exact h2.symm
  · intro self child
    rw [TreeItem.add_child]
    by_cases hm : child.identifier ∈ self.children.map TreeItem.identifier
    · rw [if_pos hm]
      simp [hm]
    · rw [if_neg hm]
      simp [hm]
  · intro self child t h
    rw [TreeItem.add_child] at h
    split at h
    · cases h
    · injection h with h2
      rw [← h2]
      exact ⟨rfl, rfl, rfl⟩

/-- C4 witness: adding a child with the fresh identifier 2 to a node with
one child of identifier 1 appends it at the end and preserves everything
else. -/
theorem c4_duplicate_identifier_is_only_error_witness :
    (TreeItem.mk 0 7 [TreeItem.mk 1 1 [], TreeItem.mk 2 3 []]).identifier =
      (TreeItem.mk 0 7 [TreeItem.mk 1 1 []]).identifier ∧
    (TreeItem.mk 0 7 [TreeItem.mk 1 1 [], TreeItem.mk 2 3 []]).content =
      (TreeItem.mk 0 7 [TreeItem.mk 1 1 []]).content ∧
    (TreeItem.mk 0 7 [TreeItem.mk 1 1 [], TreeItem.mk 2 3 []]).children =
      (TreeItem.mk 0 7 [TreeItem.mk 1 1 []]).children ++ [TreeItem.mk 2 3 []] :=
  c4_duplicate_identifier_is_only_error.2.2.2
    (TreeItem.mk 0 7 [TreeItem.mk 1 1 []]) (TreeItem.mk 2 3 [])
    (TreeItem.mk 0 7 [TreeItem.mk 1 1 [], TreeItem.mk 2 3 []]) rfl

theorem specVisible_mono {openIds : List (List Nat)}
    {items items' : List TreeItem} (hsub : ∀ x ∈ items, x ∈ items')
    {current p : List Nat} {n : TreeItem}
    (h : SpecVisible openIds items current p n) :
    SpecVisible openIds items' current p n := by
  cases h with
  | here hmem => exact SpecVisible.here (hsub _ hmem)
  | deeper hmem hopen hrec => exact SpecVisible.deeper (hsub _ hmem) hopen hrec

theorem specVisible_of_mem_flatten (openIds : List (List Nat)) :
    ∀ (items : List TreeItem) (current p : List Nat) (n : TreeItem),
      Flattened.mk p n ∈ flatten openIds items current →
      SpecVisible openIds items current p n := by
  intro items current
  induction items, current using flatten.induct openIds with
  | case1 current =>
    intro p n h
    simp [flatten] at h
  | case2 ident cont children rest current cid ih1 ih2 =>
    intro p n h
    simp only [flatten] at h
    rcases List.mem_cons.mp h with heq | hmem
    · rw [Flattened.mk.injEq] at heq
      obtain ⟨h1, h2⟩ := heq
      subst h1
      subst h2
      exact SpecVisible.here (List.mem_cons_self _ _)
    · rcases List.mem_append.mp hmem with hchild | hrest
      · by_cases hopen : (current ++ [ident]) ∈ openIds
        · rw [if_pos hopen] at hchild
          exact SpecVisible.deeper (List.mem_cons_self _ _) hopen
            (ih1 p n hchild)
        · rw [if_neg hopen] at hchild
          simp at hchild
      · exact specVisible_mono (fun x hx => List.mem_cons_of_mem _ hx)
          (ih2 p n hrest)

theorem mem_flatten_self (openIds : List (List Nat)) :
    ∀ (items : List TreeItem) (current : List Nat) (n : TreeItem), n ∈ items →
      Flattened.mk (current ++ [n.identifier]) n ∈
        flatten openIds items current := by
  intro items
  induction items with
  | nil =>
    intro current n h
    cases h
  | cons head rest ih =>
    intro current n h
    cases head with
    | mk ident cont children =>
      rcases List.mem_cons.mp h with rfl | hrest
      · simp only [flatten]
        exact List.mem_cons_self _ _
      · simp only [flatten]
        exact List.mem_cons_of_mem _
          (List.mem_append_right _ (ih current n hrest))

theorem mem_flatten_lift (openIds : List (List Nat)) {p : List Nat}
    {m : TreeItem} :
    ∀ (items : List TreeItem) (current : List Nat) (n : TreeItem), n ∈ items →
      (current ++ [n.identifier]) ∈ openIds →
      Flattened.mk p m ∈
        flatten openIds n.children (current ++ [n.identifier]) →
      Flattened.mk p m ∈ flatten openIds items current := by
  intro items
  induction items with
  | nil =>
    intro current n h
    cases h
  | cons head rest ih =>
    intro current n hmem hopen hin
    cases head with
    | mk ident cont children =>
      rcases List.mem_cons.mp hmem with rfl | hrest
      · simp only [TreeItem.identifier, TreeItem.children] at hopen hin
        simp only [flatten, if_pos hopen]
        exact List.mem_cons_of_mem _ (List.mem_append_left _ hin)
      · simp only [flatten]
        exact List.mem_cons_of_mem _
          (List.mem_append_right _ (ih current n hrest hopen hin))

theorem mem_flatten_of_specVisible (openIds : List (List Nat))
    {items : List TreeItem} {current p : List Nat} {n : TreeItem}
    (h : SpecVisible openIds items current p n) :
    Flattened.mk p n ∈ flatten openIds items current := by
  induction h with
  | here hmem => exact mem_flatten_self openIds _ _ _ hmem
  | deeper hmem hopen _ ih => exact mem_flatten_lift openIds _ _ _ hmem hopen ih

theorem flatten_append (openIds : List (List Nat)) :
    ∀ (l1 l2 : List TreeItem) (current : List Nat),
      flatten openIds (l1 ++ l2) current =
        flatten openIds l1 current ++ flatten openIds l2 current := by
  intro l1
  induction l1 with
  | nil =>
    intro l2 current
    simp [flatten]
  | cons head rest ih =>
    intro l2 current
    cases head with
    | mk ident cont children =>
      simp only [List.cons_append, flatten, ih, List.append_assoc]

theorem flatten_singleton (openIds : List (List Nat)) (item : TreeItem)
    (current : List Nat) :
    flatten openIds [item] current =
      Flattened.mk (current ++ [item.identifier]) item ::
        (if (current ++ [item.identifier]) ∈ openIds then
          flatten openIds item.children (current ++ [item.identifier])
        else []) := by
  cases item with
  | mk ident cont children =>
    simp only [flatten, TreeItem.identifier, TreeItem.children,
      List.append_nil]

/-- C2: flatten lists the visible rows in depth-first pre-order. (i) A row
(p, n) occurs in the output exactly when n is reachable from the items
through a chain of children of expanded nodes, so the row of every item is
always included, the path of every row is the path of its parent extended
by its own identifier, children are visited exactly when the path of the
node is a member of the expanded set, and no descendant of an unexpanded
node appears. (ii) Sibling subtrees appear contiguously in input order.
(iii) The block of a single node is its own row first, followed by the
rows of its visible descendants. -/
theorem c2_flatten_preorder :
    (∀ (openIds : List (List Nat)) (items : List TreeItem)
        (current p : List Nat) (n : TreeItem),
      Flattened.mk p n ∈ flatten openIds items current ↔
        SpecVisible openIds items current p n) ∧
    (∀ (openIds : List (List Nat)) (l1 l2 : List TreeItem)
        (current : List Nat),
      flatten openIds (l1 ++ l2) current =
        flatten openIds l1 current ++ flatten openIds l2 current) ∧
    (∀ (openIds : List (List Nat)) (item : TreeItem) (current : List Nat),
      flatten openIds [item] current =
        Flattened.mk (current ++ [item.identifier]) item ::
          (if (current ++ [item.identifier]) ∈ openIds then
            flatten openIds item.children (current ++ [item.identifier])
          else [])) :=
  ⟨fun openIds items current p n =>
    ⟨specVisible_of_mem_flatten openIds items current p n,
     mem_flatten_of_specVisible openIds⟩,
   flatten_append, flatten_singleton⟩

/-- C2 witness: the sibling-order part of the pre-order theorem applied
to two concrete one-node subtrees. -/
theorem c2_flatten_preorder_witness :
    flatten [] ([TreeItem.mk 1 1 []] ++ [TreeItem.mk 2 1 []]) [] =
      flatten [] [TreeItem.mk 1 1 []] [] ++ flatten [] [TreeItem.mk 2 1 []] [] :=
  c2_flatten_preorder.2.1 [] [TreeItem.mk 1 1 []] [TreeItem.mk 2 1 []] []

theorem specVisible_path_shape {openIds : List (List Nat)}
    {items : List TreeItem} {current p : List Nat} {n : TreeItem}
    (h : SpecVisible openIds items current p n) :
    ∃ pre, p = pre ++ [n.identifier] := by
  induction h with
  | here _ => exact ⟨_, rfl⟩
  | deeper _ _ _ ih => exact ih

/-- C9: every row produced by flatten has a non-empty path, and its
reported depth is the length of its path minus one with the subtraction
never truncating: depth + 1 equals the length of the path (so root-level
rows have depth 0 and the subtraction in depth() cannot underflow). -/
theorem c9_flatten_depth (openIds : List (List Nat)) (items : List TreeItem)
    (current : List Nat) :
    ∀ row ∈ flatten openIds items current,
      row.identifier ≠ [] ∧ row.depth + 1 = row.identifier.length := by
  intro row hrow
  obtain ⟨p, n⟩ := row
  have hvis := specVisible_of_mem_flatten openIds items current p n hrow
  obtain ⟨pre, rfl⟩ := specVisible_path_shape hvis
  constructor
  · simp
  · simp [Flattened.depth]

/-- C9 witness: the single row of a one-leaf tree has path [5], depth 0
and depth + 1 = 1. -/
theorem c9_flatten_depth_witness :
    (Flattened.mk [5] (TreeItem.mk 5 1 [])).identifier ≠ [] ∧
    (Flattened.mk [5] (TreeItem.mk 5 1 [])).depth + 1 =
      (Flattened.mk [5] (TreeItem.mk 5 1 [])).identifier.length :=
  c9_flatten_depth [] [TreeItem.mk 5 1 []] []
    (Flattened.mk [5] (TreeItem.mk 5 1 [])) (by simp [flatten])

end ManagarrTree
